import Mathlib

/-!
Verification of the structured-extraction pipeline specification
(candidate location, text repair, multi-object merge, schema construction)
of `parse_response_model_str`.

The pipeline itself is modelled from the specification document, since only
its unit tests are present in the source tree.  Each stage of the pipeline
(§4.1–§4.5 of the spec) is embedded as an executable Lean function over
character lists, and the claims are settled against this embedding.
-/

/- Modelled from the spec: raw value tokens held by a `FieldMapping`
(§3 Data Model): string, number (kept as its raw token text), boolean,
null, nested mapping, or ordered sequence.  `JFields` is the ordered,
key-identity-preserving mapping; `JItems` an ordered sequence. -/
mutual

/-- Raw value token (§3). -/
inductive JValue where
  | jstr (s : String)
  | jnum (t : String)
  | jbool (b : Bool)
  | jnull
  | jobj (fs : JFields)
  | jarr (xs : JItems)

/-- Ordered field mapping, keys byte-for-byte as in the source (§3). -/
inductive JFields where
  | nil
  | cons (k : String) (v : JValue) (rest : JFields)

/-- Ordered sequence of raw value tokens (§3). -/
inductive JItems where
  | nil
  | cons (v : JValue) (rest : JItems)

end

/-- Whitespace characters the strict parser may skip between tokens. -/
def wsChar (c : Char) : Bool :=
  c = ' ' || c = '\n' || c = '\t' || c = '\r'

/-- Skip leading whitespace. -/
def skipWs (cs : List Char) : List Char :=
  cs.dropWhile wsChar

/-- Characters that may occur in a raw number token. -/
def numChar (c : Char) : Bool :=
  c.isDigit || c = '-' || c = '+' || c = '.' || c = 'e' || c = 'E'

/-- Decode one escape character of a strict string literal. -/
def unescChar (c : Char) : Option Char :=
  if c = '"' then some '"'
  else if c = '\\' then some '\\'
  else if c = '/' then some '/'
  else if c = 'n' then some '\n'
  else if c = 't' then some '\t'
  else if c = 'r' then some '\r'
  else none

/-- Strict string-literal body parser: input is the text just after the
opening quote; returns the decoded content and the text after the closing
quote.  Literal control characters inside a string are rejected. -/
def parseStringBody : List Char → Option (List Char × List Char)
  | [] => none
  | c :: rest =>
    if c = '\\' then
      match rest with
      | d :: rest2 =>
        match unescChar d with
        | some e =>
          match parseStringBody rest2 with
          | some (s, r) => some (e :: s, r)
          | none => none
        | none => none
      | [] => none
    else if c = '"' then some ([], rest)
    else if c.toNat < 0x20 then none
    else
      match parseStringBody rest with
      | some (s, r) => some (c :: s, r)
      | none => none

mutual

/-- Strict recursive-descent parser for one value (§4.1 Direct Parser).
Fuel bounds the recursion depth; every recursive call consumes input, so
`length + 1` fuel always suffices. -/
def parseValueF : Nat → List Char → Option (JValue × List Char)
  | 0, _ => none
  | n + 1, cs =>
    match skipWs cs with
    | [] => none
    | c :: rest =>
      if c = '"' then
        match parseStringBody rest with
        | some (s, r) => some (.jstr (String.mk s), r)
        | none => none
      else if c = '{' then
        match parseMembersF n rest with
        | some (fs, r) => some (.jobj fs, r)
        | none => none
      else if c = '[' then
        match parseItemsF n rest with
        | some (xs, r) => some (.jarr xs, r)
        | none => none
      else if c = 't' then
        match rest with
        | 'r' :: 'u' :: 'e' :: r => some (.jbool true, r)
        | _ => none
      else if c = 'f' then
        match rest with
        | 'a' :: 'l' :: 's' :: 'e' :: r => some (.jbool false, r)
        | _ => none
      else if c = 'n' then
        match rest with
        | 'u' :: 'l' :: 'l' :: r => some (.jnull, r)
        | _ => none
      else if c.isDigit || c = '-' then
        some (.jnum (String.mk (c :: rest.takeWhile numChar)), rest.dropWhile numChar)
      else none

/-- Strict parser for object members, starting just after `{` (or after a
comma).  Keys are taken byte-for-byte from the source text. -/
def parseMembersF : Nat → List Char → Option (JFields × List Char)
  | 0, _ => none
  | n + 1, cs =>
    match skipWs cs with
    | [] => none
    | c :: rest =>
      if c = '}' then some (.nil, rest)
      else if c = '"' then
        match parseStringBody rest with
        | some (k, r1) =>
          match skipWs r1 with
          | [] => none
          | c2 :: r2 =>
            if c2 = ':' then
              match parseValueF n r2 with
              | some (v, r3) =>
                match skipWs r3 with
                | [] => none
                | c3 :: r4 =>
                  if c3 = ',' then
                    match parseMembersF n r4 with
                    | some (fs, r) => some (.cons (String.mk k) v fs, r)
                    | none => none
                  else if c3 = '}' then some (.cons (String.mk k) v .nil, r4)
                  else none
              | none => none
            else none
        | none => none
      else none

/-- Strict parser for array items, starting just after `[` (or after a
comma). -/
def parseItemsF : Nat → List Char → Option (JItems × List Char)
  | 0, _ => none
  | n + 1, cs =>
    match skipWs cs with
    | [] => none
    | c :: rest =>
      if c = ']' then some (.nil, rest)
      else
        match parseValueF n cs with
        | some (v, r1) =>
          match skipWs r1 with
          | [] => none
          | c2 :: r2 =>
            if c2 = ',' then
              match parseItemsF n r2 with
              | some (xs, r) => some (.cons v xs, r)
              | none => none
            else if c2 = ']' then some (.cons v .nil, r2)
            else none
        | none => none

end

/-- Modelled from the spec: the Direct Parser stage (§4.1) — a strict
structured parse of the whole input with no repair, succeeding only when
the entire text is one object followed by nothing but whitespace. -/
def directParse (s : String) : Option JFields :=
  match parseValueF (s.data.length + 1) s.data with
  | some (.jobj fs, rest) => if (skipWs rest).isEmpty then some fs else none
  | _ => none

/-- True when, after optional whitespace, the text starts with one of the
structural terminators `:`, `,`, `}`, `]`, or is exhausted (§4.3 repair
policy: a quote immediately followed by one of these — or whitespace then
one of these — is a true closing quote). -/
def termAhead (cs : List Char) : Bool :=
  match skipWs cs with
  | [] => true
  | c :: _ => c = ':' || c = ',' || c = '}' || c = ']'

/-- One-character escape used when repair must keep a content character
inside a string value parseable (quote, backslash, or control character);
all other characters pass through unchanged. -/
def escChar (c : Char) : List Char :=
  if c = '"' then ['\\', '"']
  else if c = '\\' then ['\\', '\\']
  else if c = '\n' then ['\\', 'n']
  else if c = '\t' then ['\\', 't']
  else if c = '\r' then ['\\', 'r']
  else [c]

/-- Escape a whole character sequence with `escChar`. -/
def escStr : List Char → List Char
  | [] => []
  | c :: cs => escChar c ++ escStr cs

/-- States of the repair state machine (§9 design note): between
structural tokens, inside a key string, inside a value string, or inside
a triple-backtick fenced block nested within a value string. -/
inductive RMode where
  | out
  | key
  | val
  | fence

/- Modelled from the spec: the Text Repairer stage (§4.3) as an explicit
state machine.  Outside strings it strips control characters and
markdown emphasis markers; key strings pass through byte-for-byte; inside
value strings it escapes control characters and applies the quote-repair
policy (a quote not followed by a structural terminator is content and is
escaped; one followed by a terminator closes the value); a fenced block
nested in a value is passed through with its content intact.  The context
stack (`true` = object, `false` = array) and the `nk` flag track whether
the next string is a key, so that repair only ever operates inside value
content.  Fuel decreases once per step while at least one character is
consumed, so `length + 1` fuel always runs the machine to the end. -/

/-- One state machine for the Text Repairer (§4.3); see the block comment
above. -/
def repairStep : Nat → RMode → List Bool → Bool → List Char → List Char
  | 0, _, _, _, _ => []
  | _ + 1, _, _, _, [] => []
  | n + 1, .out, ctx, nk, c :: rest =>
    if c = '{' then '{' :: repairStep n .out (true :: ctx) true rest
    else if c = '}' then '}' :: repairStep n .out ctx.tail false rest
    else if c = '[' then '[' :: repairStep n .out (false :: ctx) false rest
    else if c = ']' then ']' :: repairStep n .out ctx.tail false rest
    else if c = ',' then ',' :: repairStep n .out ctx (ctx.headD false) rest
    else if c = ':' then ':' :: repairStep n .out ctx false rest
    else if c = '"' then '"' :: repairStep n (if nk then .key else .val) ctx nk rest
    else if c = '\n' || c = '\t' || c = '\r' then repairStep n .out ctx nk rest
    else if c = '`' || c = '*' then repairStep n .out ctx nk rest
    else c :: repairStep n .out ctx nk rest
  | n + 1, .key, ctx, nk, c :: rest =>
    if c = '\\' then
      match rest with
      | d :: rest2 => '\\' :: d :: repairStep n .key ctx nk rest2
      | [] => ['\\']
    else if c = '"' then '"' :: repairStep n .out ctx false rest
    else c :: repairStep n .key ctx nk rest
  | n + 1, .val, ctx, nk, c :: rest =>
    if c = '\\' then
      match rest with
      | d :: rest2 => '\\' :: d :: repairStep n .val ctx nk rest2
      | [] => ['\\']
    else if c = '`' then
      match rest with
      | d :: e :: rest3 =>
        if d = '`' && e = '`' then '`' :: '`' :: '`' :: repairStep n .fence ctx nk rest3
        else '`' :: repairStep n .val ctx nk (d :: e :: rest3)
      | [d] => '`' :: repairStep n .val ctx nk [d]
      | [] => ['`']
    else if c = '"' then
      if termAhead rest then '"' :: repairStep n .out ctx false rest
      else '\\' :: '"' :: repairStep n .val ctx nk rest
    else if c = '\n' || c = '\t' || c = '\r' then escChar c ++ repairStep n .val ctx nk rest
    else c :: repairStep n .val ctx nk rest
  | n + 1, .fence, ctx, nk, c :: rest =>
    if c = '`' then
      match rest with
      | d :: e :: rest3 =>
        if d = '`' && e = '`' then '`' :: '`' :: '`' :: repairStep n .val ctx nk rest3
        else '`' :: repairStep n .fence ctx nk (d :: e :: rest3)
      | [d] => '`' :: repairStep n .fence ctx nk [d]
      | [] => ['`']
    else escChar c ++ repairStep n .fence ctx nk rest

/-- Repair one candidate substring (§4.3), starting between structural
tokens with an empty context. -/
def repairCandidate (cs : List Char) : List Char :=
  repairStep (cs.length + 1) .out [] false cs

/-- Re-verification after repair (§4.3 step 4): the repaired text must
strictly parse as one object followed only by whitespace, else the
candidate is discarded. -/
def parseCandidate (cs : List Char) : Option JFields :=
  match parseValueF (cs.length + 1) cs with
  | some (.jobj fs, rest) => if (skipWs rest).isEmpty then some fs else none
  | _ => none

/-- Head of a character list is an ASCII letter. -/
def headIsAlpha (cs : List Char) : Bool :=
  match cs with
  | c :: _ => c.isAlpha
  | [] => false

/-- Scan the interior of a triple-backtick fence for its closing marker
(§4.2 item 1–2).  A ``` immediately followed by a letter opens a nested
fence (as a fenced block inside a string value does); a ``` not followed
by a letter closes the innermost open fence.  Returns the fence content
and the text after the closing marker. -/
def scanFence : Nat → Nat → List Char → Option (List Char × List Char)
  | 0, _, _ => none
  | n + 1, depth, '`' :: '`' :: '`' :: rest =>
    if headIsAlpha rest then
      match scanFence n (depth + 1) rest with
      | some (content, r) => some ('`' :: '`' :: '`' :: content, r)
      | none => none
    else if depth = 0 then some ([], rest)
    else
      match scanFence n (depth - 1) rest with
      | some (content, r) => some ('`' :: '`' :: '`' :: content, r)
      | none => none
  | n + 1, depth, c :: rest =>
    match scanFence n depth rest with
    | some (content, r) => some (c :: content, r)
    | none => none
  | _ + 1, _, [] => none

/-- Modelled from the spec: locate all triple-backtick fenced blocks in
document order (§4.2 items 1–2), returning each fence's tag (empty for an
untagged fence) and content.  An unclosed fence yields nothing. -/
def goFences : Nat → List Char → List (String × List Char)
  | 0, _ => []
  | n + 1, '`' :: '`' :: '`' :: rest =>
    let tag := rest.takeWhile Char.isAlpha
    match scanFence n 0 (rest.drop tag.length) with
    | some (content, r) => (String.mk tag, content) :: goFences n r
    | none => []
  | n + 1, _ :: rest => goFences n rest
  | _ + 1, [] => []

/-- Modes of the balanced-brace scanner: between tokens, inside a quoted
string, or inside a fenced block nested in a string. -/
inductive BMode where
  | struc
  | instr
  | infence

/-- Scan for the end of a balanced-brace span (§4.2 item 3), tracking
`{`/`}` nesting depth while ignoring braces inside quoted string
segments.  Quote tracking uses the same structural-terminator heuristic
as repair (§4.3), so it is not fooled by the unescaped-quote defects the
pipeline exists to repair, and it passes over fenced blocks nested in
values.  Returns the span (without its opening brace) and the rest. -/
def scanBrace : Nat → BMode → Nat → List Char → Option (List Char × List Char)
  | 0, _, _, _ => none
  | n + 1, .struc, depth, '}' :: rest =>
    if depth = 1 then some (['}'], rest)
    else
      match scanBrace n .struc (depth - 1) rest with
      | some (span, r) => some ('}' :: span, r)
      | none => none
  | n + 1, .struc, depth, '{' :: rest =>
    match scanBrace n .struc (depth + 1) rest with
    | some (span, r) => some ('{' :: span, r)
    | none => none
  | n + 1, .struc, depth, '"' :: rest =>
    match scanBrace n .instr depth rest with
    | some (span, r) => some ('"' :: span, r)
    | none => none
  | n + 1, .struc, depth, c :: rest =>
    match scanBrace n .struc depth rest with
    | some (span, r) => some (c :: span, r)
    | none => none
  | n + 1, .instr, depth, '\\' :: d :: rest =>
    match scanBrace n .instr depth rest with
    | some (span, r) => some ('\\' :: d :: span, r)
    | none => none
  | n + 1, .instr, depth, '`' :: '`' :: '`' :: rest =>
    match scanBrace n .infence depth rest with
    | some (span, r) => some ('`' :: '`' :: '`' :: span, r)
    | none => none
  | n + 1, .instr, depth, '"' :: rest =>
    match scanBrace n (if termAhead rest then .struc else .instr) depth rest with
    | some (span, r) => some ('"' :: span, r)
    | none => none
  | n + 1, .instr, depth, c :: rest =>
    match scanBrace n .instr depth rest with
    | some (span, r) => some (c :: span, r)
    | none => none
  | n + 1, .infence, depth, '`' :: '`' :: '`' :: rest =>
    match scanBrace n .instr depth rest with
    | some (span, r) => some ('`' :: '`' :: '`' :: span, r)
    | none => none
  | n + 1, .infence, depth, c :: rest =>
    match scanBrace n .infence depth rest with
    | some (span, r) => some (c :: span, r)
    | none => none
  | _ + 1, _, _, [] => none

/-- Modelled from the spec: locate the maximal balanced-brace spans in
document order (§4.2 item 3), scanning left to right and emitting each
span whose brace depth returns to zero. -/
def goBraces : Nat → List Char → List (List Char)
  | 0, _ => []
  | n + 1, '{' :: rest =>
    match scanBrace n .struc 1 rest with
    | some (span, r) => ('{' :: span) :: goBraces n r
    | none => []
  | n + 1, _ :: rest => goBraces n rest
  | _ + 1, [] => []

/-- Expected semantic types of schema fields (§3 TargetSchema). -/
inductive FieldType where
  | ftString
  | ftNumber
  | ftBool
  | ftSeq

/-- One declared schema field: its exact name, expected type, and whether
it is required (§3, §6). -/
structure FieldSpec where
  name : String
  type : FieldType
  required : Bool

/-- A target schema is its ordered list of declared fields. -/
abbrev Schema := List FieldSpec

/-- Look a field up in a mapping by exact, case-sensitive key identity. -/
def lookupField (k : String) : JFields → Option JValue
  | .nil => none
  | .cons k2 v rest => if k2 = k then some v else lookupField k rest

/-- Can a raw token convert to the expected semantic type (§4.5)? -/
def typeMatches : FieldType → JValue → Bool
  | .ftString, .jstr _ => true
  | .ftNumber, .jnum _ => true
  | .ftBool, .jbool _ => true
  | .ftSeq, .jarr _ => true
  | _, _ => false

/-- One schema field is satisfied by a mapping: present with a
convertible token, or absent but optional (§4.5). -/
def fieldOK (m : JFields) (f : FieldSpec) : Bool :=
  match lookupField f.name m with
  | some v => typeMatches f.type v
  | none => !f.required

/-- Modelled from the spec: the Schema Validator/Constructor stage
(§4.5) — construction fails when a required field is absent or a present
field's raw token cannot convert to the expected type, and otherwise
yields the typed value (the validated mapping, field identities intact). -/
def construct (sch : Schema) (m : JFields) : Option JFields :=
  if sch.all (fieldOK m) then some m else none

/-- Append two ordered sequences. -/
def JItems.append : JItems → JItems → JItems
  | .nil, ys => ys
  | .cons x xs, ys => .cons x (xs.append ys)

/-- The "list-of-items" shape (§4.4): a mapping consisting of exactly one
top-level field whose value is an ordered sequence. -/
def seqField : JFields → Option (String × JItems)
  | .cons k (.jarr xs) .nil => some (k, xs)
  | _ => none

/-- Concatenate the sequences of further mappings onto `acc`, provided
every mapping has the single sequence field named `k` (§4.4). -/
def mergeRest (k : String) (acc : JItems) : List JFields → Option JItems
  | [] => some acc
  | m :: ms =>
    match seqField m with
    | some (k2, xs) => if k2 = k then mergeRest k (acc.append xs) ms else none
    | none => none

/-- Modelled from the spec: the Multi-Object Merger policy (§4.4) — when
every candidate mapping shares an identical top-level single field whose
value is a sequence, concatenate the sequences in document order into one
mapping with that field; any other shape refuses to merge. -/
def mergeAll : List JFields → Option JFields
  | [] => none
  | m :: ms =>
    match seqField m with
    | some (k, xs) =>
      match mergeRest k xs ms with
      | some all => some (.cons k (.jarr all) .nil)
      | none => none
    | none => none

/-- Modelled from the spec: the full extraction pipeline (§2): direct
parse first; otherwise locate candidates in priority order (json-tagged
fences, then untagged fences, then — only when no fence exists — the
balanced-brace spans), repair and re-parse each, merge multiple valid
candidates under the §4.4 policy or keep the first, and finally attempt
schema construction.  Every failure path yields `none`. -/
def extract (raw : String) (sch : Schema) : Option JFields :=
  match directParse raw with
  | some m => construct sch m
  | none =>
    let cs := raw.data
    let fences := goFences (cs.length + 1) cs
    let tagged := (fences.filter (fun f => f.1 = "json")).map (fun f => f.2)
    let untagged := (fences.filter (fun f => f.1 = "")).map (fun f => f.2)
    let cands := if (tagged ++ untagged).isEmpty then goBraces (cs.length + 1) cs
                 else tagged ++ untagged
    let valid := cands.filterMap (fun c => parseCandidate (repairCandidate c))
    match valid with
    | [] => none
    | [m] => construct sch m
    | m :: _ =>
      match mergeAll valid with
      | some merged => construct sch merged
      | none => construct sch m

mutual

/-- Serialize one raw value token back to strict structured text
(compact form: no whitespace between tokens, strings escaped with
`escChar`, numbers emitted as their raw token text). -/
def serJ : JValue → List Char
  | .jstr s => '"' :: (escStr s.data ++ ['"'])
  | .jnum t => t.data
  | .jbool true => ['t', 'r', 'u', 'e']
  | .jbool false => ['f', 'a', 'l', 's', 'e']
  | .jnull => ['n', 'u', 'l', 'l']
  | .jobj fs => '{' :: serFields fs
  | .jarr xs => '[' :: serItems xs

/-- Serialize the members of an object, up to and including its `}`. -/
def serFields : JFields → List Char
  | .nil => ['}']
  | .cons k v fs => '"' :: (escStr k.data ++ '"' :: ':' :: serJ v) ++ serTail fs

/-- Serialize the remaining members after the first, with separators. -/
def serTail : JFields → List Char
  | .nil => ['}']
  | .cons k v fs => ',' :: '"' :: (escStr k.data ++ '"' :: ':' :: serJ v) ++ serTail fs

/-- Serialize the items of an array, up to and including its `]`. -/
def serItems : JItems → List Char
  | .nil => [']']
  | .cons v xs => serJ v ++ serITail xs

/-- Serialize the remaining items after the first, with separators. -/
def serITail : JItems → List Char
  | .nil => [']']
  | .cons v xs => ',' :: serJ v ++ serITail xs

end

/-- Serialize a constructed value (its validated field mapping) back to
structured text. -/
def serializeMapping (m : JFields) : String :=
  String.mk (serJ (.jobj m))

/-- A character that can sit inside a parsed string value: printable, or
one of the control characters expressible by a short escape. -/
def wfChar (c : Char) : Bool :=
  0x20 ≤ c.toNat || c = '\n' || c = '\t' || c = '\r'

/-- All characters of a string are `wfChar`. -/
def wfStr (s : String) : Bool :=
  s.data.all wfChar

/-- A wellformed raw number token: nonempty, made of number characters,
and starting with a digit or a minus sign. -/
def numOK (t : String) : Bool :=
  match t.data with
  | [] => false
  | c :: cs => (c.isDigit || c = '-') && (c :: cs).all numChar

mutual

/-- Wellformedness of a raw value token as the strict parser produces it:
string contents hold no unprintable characters beyond the escapable ones,
and number tokens have the raw-token shape. -/
def wfJ : JValue → Bool
  | .jstr s => wfStr s
  | .jnum t => numOK t
  | .jbool _ => true
  | .jnull => true
  | .jobj fs => wfFields fs
  | .jarr xs => wfItems xs

/-- Wellformedness of every key and value of a mapping. -/
def wfFields : JFields → Bool
  | .nil => true
  | .cons k v fs => wfStr k && wfJ v && wfFields fs

/-- Wellformedness of every item of a sequence. -/
def wfItems : JItems → Bool
  | .nil => true
  | .cons v xs => wfJ v && wfItems xs

end

mutual

/-- Fuel needed by the strict parser to reparse a serialized value. -/
def sizeJ : JValue → Nat
  | .jstr _ => 1
  | .jnum _ => 1
  | .jbool _ => 1
  | .jnull => 1
  | .jobj fs => 1 + sizeF fs
  | .jarr xs => 1 + sizeI xs

/-- Fuel needed to reparse serialized object members. -/
def sizeF : JFields → Nat
  | .nil => 1
  | .cons _ v fs => 1 + max (sizeJ v) (sizeF fs)

/-- Fuel needed to reparse serialized array items. -/
def sizeI : JItems → Nat
  | .nil => 1
  | .cons v xs => 1 + max (sizeJ v) (sizeI xs)

end

/-- The schema of the repository's `MockModel` test type: required string
field `name`, optional string fields `value` and `description`. -/
def mockSchema : Schema :=
  [⟨"name", .ftString, true⟩, ⟨"value", .ftString, false⟩, ⟨"description", .ftString, false⟩]

/-- A schema with a single required sequence field `items`. -/
def itemsSchema : Schema := [⟨"items", .ftSeq, true⟩]

/-- The two-field mixed-case schema of the key-preservation tests. -/
def mixed2Schema : Schema :=
  [⟨"Supplier_name", .ftString, true⟩, ⟨"newData", .ftString, true⟩]

/-- The four-field mixed-case schema of the key-preservation tests. -/
def mixed4Schema : Schema :=
  [⟨"Supplier_name", .ftString, true⟩, ⟨"newData", .ftString, true⟩,
   ⟨"camelCase", .ftString, true⟩, ⟨"UPPER_CASE", .ftString, true⟩]

/-- Input with a string value holding already-unescaped internal quotes. -/
def escapedQuoteInput : String :=
  "\x7b\"name\": \"test\", \"value\": \"Already escaped \"quote\"\"\x7d"

/-- Input with unescaped quotes inside both string values. -/
def quotesInValuesInput : String :=
  "\x7b\"name\": \"test \"quoted\" text\", \"value\": \"some \"quoted\" value\"\x7d"

/-- Clean input whose keys mix snake case, camel case and upper case. -/
def mixedCaseInput : String :=
  "\x7b\"Supplier_name\": \"test supplier\", \"newData\": \"some data\", \"camelCase\": \"camel value\", \"UPPER_CASE\": \"upper value\"\x7d"

/-- Markdown-fenced input with mixed-case keys and unescaped quotes in
the values. -/
def mixedCaseFenceInput : String :=
  "```json\n    \x7b\n        \"Supplier_name\": \"test \"quoted\" supplier\",\n        \"newData\": \"some \"quoted\" data\"\n    \x7d\n    ```"

/-- Two complete objects concatenated with no separator, each with the
single sequence field `items`. -/
def concatObjectsInput : String :=
  "\x7b\"items\":[\x7b\"title\":\"A\"\x7d]\x7d\x7b\"items\":[\x7b\"title\":\"B\"\x7d]\x7d"

/-- Fenced input whose `value` field holds a python code block, with
newlines and quote characters inside the block. -/
def codeBlockValueInput : String :=
  "\n    ```json\n    \x7b\n        \"name\": \"test\",\n        \"value\": \"```python\n    def hello():\n        print('Hello, world!')\n    ```\",\n        \"description\": \"A function that prints hello\"\n    \x7d\n    ```\n    "

/-- The code block the `value` field of `codeBlockValueInput` holds. -/
def codeBlockValueText : String :=
  "```python\n    def hello():\n        print('Hello, world!')\n    ```"

/-- Input holding both a json-tagged fence (object A) and an untagged
fence (object B) with different content. -/
def bothFencesInput : String :=
  "pre\n```json\n\x7b\"name\": \"A\"\x7d\n```\nmid\n```\n\x7b\"name\": \"B\"\x7d\n```\npost"

/-- Input holding an untagged fence (object A) and a bare brace span
(object B) outside any fence. -/
def fenceAndBraceInput : String :=
  "```\n\x7b\"name\": \"A\"\x7d\n```\n\x7b\"name\": \"B\"\x7d"

/-- Valid input that lacks the required field `name`. -/
def missingRequiredInput : String := "\x7b\"value\": \"123\"\x7d"

/-- Input whose second key is unquoted, a defect in the key itself. -/
def keyDefectInput : String := "\x7b\"name\": \"test\", value: \"123\"\x7d"

/-- Valid input whose values hold correctly backslash-escaped quotes. -/
def escapedBackslashInput : String :=
  "\x7b\"Supplier_name\": \"test \\\"quoted\\\" supplier\", \"newData\": \"some \\\"quoted\\\" data\"\x7d"

/-- Fenced input whose value holds correctly backslash-escaped quotes, so
that it reaches the repair path. -/
def escapedFenceInput : String :=
  "```json\n\x7b\"name\": \"a \\\"b\\\" c\"\x7d\n```"


/-- Characters free of quote and backslash: a plain key body, whose
closing quote is its first quote. -/
def plainKeyChars (cs : List Char) : Bool :=
  cs.all (fun c => !(c = '"') && !(c = '\\'))

/-- No backtick at all: fenced content that cannot close its fence. -/
def noBacktick (cs : List Char) : Bool :=
  cs.all (fun c => !(c = '`'))

/-- The text after a serialized number token may not continue the token:
it is empty or starts with a non-number character. -/
def numBoundary (r : List Char) : Bool :=
  match r with
  | [] => true
  | c :: _ => !numChar c

theorem repairStep_key_cons (n : Nat) (ctx : List Bool) (nk : Bool) (c : Char)
    (rest : List Char) :
    repairStep (n + 1) .key ctx nk (c :: rest) =
      if c = '\\' then
        match rest with
        | d :: rest2 => '\\' :: d :: repairStep n .key ctx nk rest2
        | [] => ['\\']
      else if c = '"' then '"' :: repairStep n .out ctx false rest
      else c :: repairStep n .key ctx nk rest := rfl

theorem repairStep_val_cons (n : Nat) (ctx : List Bool) (nk : Bool) (c : Char)
    (rest : List Char) :
    repairStep (n + 1) .val ctx nk (c :: rest) =
      if c = '\\' then
        match rest with
        | d :: rest2 => '\\' :: d :: repairStep n .val ctx nk rest2
        | [] => ['\\']
      else if c = '`' then
        match rest with
        | d :: e :: rest3 =>
          if d = '`' && e = '`' then '`' :: '`' :: '`' :: repairStep n .fence ctx nk rest3
          else '`' :: repairStep n .val ctx nk (d :: e :: rest3)
        | [d] => '`' :: repairStep n .val ctx nk [d]
        | [] => ['`']
      else if c = '"' then
        if termAhead rest then '"' :: repairStep n .out ctx false rest
        else '\\' :: '"' :: repairStep n .val ctx nk rest
      else if c = '\n' || c = '\t' || c = '\r' then escChar c ++ repairStep n .val ctx nk rest
      else c :: repairStep n .val ctx nk rest := rfl

theorem repairStep_fence_cons (n : Nat) (ctx : List Bool) (nk : Bool) (c : Char)
    (rest : List Char) :
    repairStep (n + 1) .fence ctx nk (c :: rest) =
      if c = '`' then
        match rest with
        | d :: e :: rest3 =>
          if d = '`' && e = '`' then '`' :: '`' :: '`' :: repairStep n .val ctx nk rest3
          else '`' :: repairStep n .fence ctx nk (d :: e :: rest3)
        | [d] => '`' :: repairStep n .fence ctx nk [d]
        | [] => ['`']
      else escChar c ++ repairStep n .fence ctx nk rest := rfl

theorem parseStringBody_cons (c : Char) (rest : List Char) :
    parseStringBody (c :: rest) =
      if c = '\\' then
        match rest with
        | d :: rest2 =>
          match unescChar d with
          | some e =>
            match parseStringBody rest2 with
            | some (s, r) => some (e :: s, r)
            | none => none
          | none => none
        | [] => none
      else if c = '"' then some ([], rest)
      else if c.toNat < 0x20 then none
      else
        match parseStringBody rest with
        | some (s, r) => some (c :: s, r)
        | none => none := by
  rw [parseStringBody.eq_def]

/-- Construction never rewrites the mapping: a successful result is the
input mapping itself, field identities untouched. -/
theorem construct_some_eq {sch : Schema} {m v : JFields} (h : construct sch m = some v) :
    v = m := by
  unfold construct at h
  split at h
  · exact (Option.some.inj h).symm
  · cases h

/-- A key passes through the repair machine byte-for-byte; the machine
leaves key state only at the key's closing quote. -/
theorem repairStep_key_verbatim (ks : List Char) (n : Nat) (ctx : List Bool) (nk : Bool)
    (rest : List Char) (h : plainKeyChars ks = true) :
    repairStep (n + ks.length + 1) .key ctx nk (ks ++ '"' :: rest) =
      ks ++ '"' :: repairStep n .out ctx false rest := by
  induction ks with
  | nil => simp [repairStep_key_cons]
  | cons c cs ih =>
    simp only [plainKeyChars, List.all_cons, Bool.and_eq_true, Bool.not_eq_true',
      decide_eq_false_iff_not] at h
    obtain ⟨⟨hq, hb⟩, hcs⟩ := h
    have harith : n + (c :: cs).length + 1 = (n + cs.length + 1) + 1 := by
      simp [List.length_cons]; omega
    rw [List.cons_append, harith, repairStep_key_cons, if_neg hb, if_neg hq, ih hcs]
    rfl

/-- Fence content without backticks is emitted by the fence state in its
escaped form; the closing marker returns the machine to value state. -/
theorem repairStep_fence_passthrough (cs : List Char) (n : Nat) (ctx : List Bool)
    (nk : Bool) (rest : List Char) (h : noBacktick cs = true) :
    repairStep (n + cs.length + 1) .fence ctx nk (cs ++ '`' :: '`' :: '`' :: rest) =
      escStr cs ++ '`' :: '`' :: '`' :: repairStep n .val ctx nk rest := by
  induction cs with
  | nil => simp [repairStep_fence_cons, escStr]
  | cons c cs ih =>
    simp only [noBacktick, List.all_cons, Bool.and_eq_true, Bool.not_eq_true',
      decide_eq_false_iff_not] at h
    obtain ⟨hc, hcs⟩ := h
    have harith : n + (c :: cs).length + 1 = (n + cs.length + 1) + 1 := by
      simp [List.length_cons]; omega
    rw [List.cons_append, harith, repairStep_fence_cons, if_neg hc, ih hcs]
    simp [escStr, List.append_assoc]

/-- The strict string-body parser inverts `escStr` on wellformed content:
escaping then parsing returns the content unchanged. -/
theorem parseStringBody_escStr (cs rest : List Char) (h : cs.all wfChar = true) :
    parseStringBody (escStr cs ++ '"' :: rest) = some (cs, rest) := by
  induction cs with
  | nil => simp [escStr, parseStringBody_cons]
  | cons c cs ih =>
    simp only [List.all_cons, Bool.and_eq_true] at h
    obtain ⟨hc, hcs⟩ := h
    by_cases hq : c = '"'
    · subst hq; simp [escStr, escChar, parseStringBody_cons, unescChar, ih hcs]
    · by_cases hb : c = '\\'
      · subst hb; simp [escStr, escChar, parseStringBody_cons, unescChar, ih hcs]
      · by_cases hn : c = '\n'
        · subst hn; simp [escStr, escChar, parseStringBody_cons, unescChar, ih hcs]
        · by_cases ht : c = '\t'
          · subst ht; simp [escStr, escChar, parseStringBody_cons, unescChar, ih hcs]
          · by_cases hr : c = '\r'
            · subst hr; simp [escStr, escChar, parseStringBody_cons, unescChar, ih hcs]
            · have h20 : ¬(c.toNat < 0x20) := by
                simp only [wfChar, Bool.or_eq_true, decide_eq_true_eq] at hc
                rcases hc with ((h32 | h1) | h2) | h3
                · omega
                · exact absurd h1 hn
                · exact absurd h2 ht
                · exact absurd h3 hr
              simp [escStr, escChar, hq, hb, hn, ht, hr, parseStringBody_cons, h20, ih hcs]

/-- C1: for every input string (including the empty string and arbitrary
non-JSON text) and every target schema, the extraction pipeline returns
either some typed value or none — in the embedding every failure path is
an `Option` value, so no exception escapes to the caller; in particular
the empty string and plain prose both yield `none`. -/
theorem extract_total_no_exception :
    extract "" mockSchema = none ∧
    extract "Just some regular text" mockSchema = none ∧
    ∀ (s : String) (sch : Schema), extract s sch = none ∨ ∃ m, extract s sch = some m := by
  refine ⟨rfl, rfl, fun s sch => ?_⟩
  cases extract s sch with
  | none => exact Or.inl rfl
  | some m => exact Or.inr ⟨m, rfl⟩

/-- C2: inside a value string, a quote not followed (up to whitespace) by
one of the structural terminators `:`, `,`, `}`, `]` is escaped as
content, and a quote followed by such a terminator is the closing quote;
on the spec's example the extraction yields the value
`Already escaped "quote"`, and both values of the quotes-in-values test
keep their internal quotes. -/
theorem extract_quote_repair_policy :
    (∀ (rest : List Char) (n : Nat) (ctx : List Bool) (nk : Bool), termAhead rest = false →
      repairStep (n + 1) .val ctx nk ('"' :: rest) =
        '\\' :: '"' :: repairStep n .val ctx nk rest) ∧
    (∀ (rest : List Char) (n : Nat) (ctx : List Bool) (nk : Bool), termAhead rest = true →
      repairStep (n + 1) .val ctx nk ('"' :: rest) =
        '"' :: repairStep n .out ctx false rest) ∧
    extract escapedQuoteInput mockSchema =
      some (.cons "name" (.jstr "test")
        (.cons "value" (.jstr "Already escaped \"quote\"") .nil)) ∧
    extract quotesInValuesInput mockSchema =
      some (.cons "name" (.jstr "test \"quoted\" text")
        (.cons "value" (.jstr "some \"quoted\" value") .nil)) := by
  refine ⟨fun rest n ctx nk h => ?_, fun rest n ctx nk h => ?_, ?_, ?_⟩
  · rw [repairStep_val_cons]; simp [h]
  · rw [repairStep_val_cons]; simp [h]
  · rfl
  · rfl

/-- Witness for C2 at concrete inputs: a quote before `q` is escaped, a
quote before `}` closes the value. -/
theorem extract_quote_repair_policy_w :
    termAhead ['q'] = false ∧
    repairStep 2 .val [] false ('"' :: ['q']) = '\\' :: '"' :: repairStep 1 .val [] false ['q'] ∧
    termAhead ['}'] = true ∧
    repairStep 2 .val [] false ('"' :: ['}']) = '"' :: repairStep 1 .out [] false ['}'] :=
  ⟨by decide, extract_quote_repair_policy.1 ['q'] 1 [] false (by decide),
   by decide, extract_quote_repair_policy.2.1 ['}'] 1 [] false (by decide)⟩

/-- C3: key identity is preserved through the pipeline — construction
returns the mapping with every key byte-for-byte intact, repair passes
key characters through verbatim, and on the mixed-case examples (plain
and markdown-fenced) the keys `Supplier_name`, `newData`, `camelCase`,
`UPPER_CASE` keep their exact casing in the constructed value. -/
theorem extract_preserves_key_identity :
    extract mixedCaseInput mixed4Schema =
      some (.cons "Supplier_name" (.jstr "test supplier")
        (.cons "newData" (.jstr "some data")
          (.cons "camelCase" (.jstr "camel value")
            (.cons "UPPER_CASE" (.jstr "upper value") .nil)))) ∧
    extract mixedCaseFenceInput mixed2Schema =
      some (.cons "Supplier_name" (.jstr "test \"quoted\" supplier")
        (.cons "newData" (.jstr "some \"quoted\" data") .nil)) ∧
    (∀ (sch : Schema) (m v : JFields), construct sch m = some v → v = m) ∧
    (∀ (ks : List Char) (n : Nat) (ctx : List Bool) (nk : Bool) (rest : List Char),
      plainKeyChars ks = true →
      repairStep (n + ks.length + 1) .key ctx nk (ks ++ '"' :: rest) =
        ks ++ '"' :: repairStep n .out ctx false rest) := by
  refine ⟨rfl, rfl, fun sch m v h => construct_some_eq h, fun ks n ctx nk rest h => ?_⟩
  exact repairStep_key_verbatim ks n ctx nk rest h

/-- Witness for C3: construction keeps the concrete mixed-case mapping
unchanged, and the key `newData` passes through repair verbatim. -/
theorem extract_preserves_key_identity_w :
    construct mixed2Schema
        (.cons "Supplier_name" (.jstr "x") (.cons "newData" (.jstr "y") .nil)) =
      some (.cons "Supplier_name" (.jstr "x") (.cons "newData" (.jstr "y") .nil)) ∧
    (JFields.cons "Supplier_name" (JValue.jstr "x") (.cons "newData" (.jstr "y") .nil) : JFields) =
      JFields.cons "Supplier_name" (JValue.jstr "x") (.cons "newData" (.jstr "y") .nil) ∧
    plainKeyChars "newData".data = true ∧
    repairStep (1 + "newData".data.length + 1) .key [] true ("newData".data ++ '"' :: [':']) =
      "newData".data ++ '"' :: repairStep 1 .out [] false [':'] :=
  ⟨rfl,
   extract_preserves_key_identity.2.2.1 mixed2Schema _ _ rfl,
   by decide,
   extract_preserves_key_identity.2.2.2 "newData".data 1 [] true [':'] (by decide)⟩

/-- C4: two concatenated top-level objects whose single shared field is a
sequence merge into one mapping whose sequence is the concatenation in
document order; the `items` example yields the two-element sequence A
then B, and the merge policy concatenates for every field name and every
pair of sequences. -/
theorem extract_concatenated_merge :
    extract concatObjectsInput itemsSchema =
      some (.cons "items"
        (.jarr (.cons (.jobj (.cons "title" (.jstr "A") .nil))
          (.cons (.jobj (.cons "title" (.jstr "B") .nil)) .nil))) .nil) ∧
    ∀ (k : String) (xs ys : JItems),
      mergeAll [JFields.cons k (.jarr xs) .nil, JFields.cons k (.jarr ys) .nil] =
        some (.cons k (.jarr (xs.append ys)) .nil) := by
  refine ⟨rfl, fun k xs ys => ?_⟩
  simp [mergeAll, seqField, mergeRest]

/-- C6: a json-tagged fence outranks an untagged fence — with both
present and holding different objects, the tagged fence's object A is
extracted; and an untagged fence outranks a bare brace span. -/
theorem extract_fence_priority :
    extract bothFencesInput mockSchema = some (.cons "name" (.jstr "A") .nil) ∧
    extract fenceAndBraceInput mockSchema = some (.cons "name" (.jstr "A") .nil) :=
  ⟨rfl, rfl⟩

/-- C7: when the final mapping lacks a field the schema requires,
construction fails and the whole extraction returns none; in general a
required field absent from the mapping makes `construct` fail, and on
the example lacking `name` the extraction yields `none`. -/
theorem extract_missing_required_field :
    extract missingRequiredInput mockSchema = none ∧
    ∀ (sch : Schema) (f : FieldSpec) (m : JFields), f ∈ sch → f.required = true →
      lookupField f.name m = none → construct sch m = none := by
  refine ⟨rfl, fun sch f m hf hr hl => ?_⟩
  have hfo : fieldOK m f = false := by simp [fieldOK, hl, hr]
  unfold construct
  rw [if_neg]
  intro hall
  have hform := List.all_eq_true.mp hall f hf
  rw [hfo] at hform
  cases hform

/-- Witness for C7: the required field `name` is in the mock schema and
absent from the empty mapping, so construction fails there. -/
theorem extract_missing_required_field_w :
    (⟨"name", .ftString, true⟩ : FieldSpec) ∈ mockSchema ∧
    construct mockSchema .nil = none :=
  ⟨by unfold mockSchema; exact List.mem_cons_self _ _,
   extract_missing_required_field.2 mockSchema ⟨"name", .ftString, true⟩ .nil
     (by unfold mockSchema; exact List.mem_cons_self _ _) rfl rfl⟩

/-- C8: repair operates only inside value content and never alters key
characters — an ordinary character between structural tokens (where a
bare key would sit) is passed through unrepaired, so a candidate whose
key is unquoted fails the re-parse and is discarded: the unquoted-key
example extracts to `none`. -/
theorem extract_key_defect_discard :
    extract keyDefectInput mockSchema = none ∧
    ∀ (c : Char) (n : Nat) (ctx : List Bool) (nk : Bool) (rest : List Char),
      ¬ c ∈ ['{', '}', '[', ']', ',', ':', '"', '\n', '\t', '\r', '`', '*'] →
      repairStep (n + 1) .out ctx nk (c :: rest) = c :: repairStep n .out ctx nk rest := by
  refine ⟨rfl, fun c n ctx nk rest h => ?_⟩
  simp only [List.mem_cons, List.mem_singleton, not_or] at h
  obtain ⟨h1, h2, h3, h4, h5, h6, h7, h8, h9, h10, h11, h12⟩ := h
  simp [repairStep, h1, h2, h3, h4, h5, h6, h7, h8, h9, h10, h11, h12]

/-- Witness for C8: the bare-key character `v` is outside the structural
set and passes through the repair machine unchanged. -/
theorem extract_key_defect_discard_w :
    ¬ 'v' ∈ ['{', '}', '[', ']', ',', ':', '"', '\n', '\t', '\r', '`', '*'] ∧
    repairStep 2 .out [] true ('v' :: [':']) = 'v' :: repairStep 1 .out [] true [':'] :=
  ⟨by decide, extract_key_defect_discard.2 'v' 1 [] true [':'] (by decide)⟩

/-- C10: an already-escaped quote is never escaped again — the value
state passes a backslash-escape pair through unchanged, valid input with
backslash-escaped quotes extracts with each pair decoded to one quote
character, and the same holds on the markdown-fence repair path. -/
theorem extract_no_double_escaping :
    (∀ (n : Nat) (ctx : List Bool) (nk : Bool) (d : Char) (rest : List Char),
      repairStep (n + 1) .val ctx nk ('\\' :: d :: rest) =
        '\\' :: d :: repairStep n .val ctx nk rest) ∧
    extract escapedBackslashInput mixed2Schema =
      some (.cons "Supplier_name" (.jstr "test \"quoted\" supplier")
        (.cons "newData" (.jstr "some \"quoted\" data") .nil)) ∧
    extract escapedFenceInput mockSchema = some (.cons "name" (.jstr "a \"b\" c") .nil) := by
  refine ⟨fun n ctx nk d rest => ?_, ?_, ?_⟩
  · rw [repairStep_val_cons]; simp
  · rfl
  · rfl

set_option maxRecDepth 10000 in
/-- C5: a triple-backtick fenced block nested inside a string value
passes through extraction with its content intact — the fence state
emits the content in escaped form (so that re-parsing returns it
unchanged, quotes and newlines included) and only the outer
value-delimiting quotes are subject to repair; on the python-code
example the extracted `value` is the fenced block verbatim. -/
theorem extract_fenced_block_passthrough :
    extract codeBlockValueInput mockSchema =
      some (.cons "name" (.jstr "test")
        (.cons "value" (.jstr codeBlockValueText)
          (.cons "description" (.jstr "A function that prints hello") .nil))) ∧
    (∀ (cs : List Char) (n : Nat) (ctx : List Bool) (nk : Bool) (rest : List Char),
      noBacktick cs = true →
      repairStep (n + cs.length + 1) .fence ctx nk (cs ++ '`' :: '`' :: '`' :: rest) =
        escStr cs ++ '`' :: '`' :: '`' :: repairStep n .val ctx nk rest) ∧
    (∀ (cs rest : List Char), cs.all wfChar = true →
      parseStringBody (escStr cs ++ '"' :: rest) = some (cs, rest)) :=
  ⟨rfl,
   fun cs n ctx nk rest h => repairStep_fence_passthrough cs n ctx nk rest h,
   fun cs rest h => parseStringBody_escStr cs rest h⟩

/-- Witness for C5: concrete fence content with a quote and a newline
passes through the fence state escaped and re-parses to itself. -/
theorem extract_fenced_block_passthrough_w :
    noBacktick ['a', '"', '\n'] = true ∧
    repairStep (1 + (['a', '"', '\n'] : List Char).length + 1) .fence [] false
        (['a', '"', '\n'] ++ '`' :: '`' :: '`' :: [',']) =
      escStr ['a', '"', '\n'] ++ '`' :: '`' :: '`' :: repairStep 1 .val [] false [','] ∧
    (['a', '"', '\n'] : List Char).all wfChar = true ∧
    parseStringBody (escStr ['a', '"', '\n'] ++ '"' :: ['x']) = some (['a', '"', '\n'], ['x']) :=
  ⟨by decide,
   extract_fenced_block_passthrough.2.1 ['a', '"', '\n'] 1 [] false [','] (by decide),
   by decide,
   extract_fenced_block_passthrough.2.2 ['a', '"', '\n'] ['x'] (by decide)⟩

theorem parseValueF_succ (n : Nat) (cs : List Char) :
    parseValueF (n + 1) cs =
      match skipWs cs with
      | [] => none
      | c :: rest =>
        if c = '"' then
          match parseStringBody rest with
          | some (s, r) => some (.jstr (String.mk s), r)
          | none => none
        else if c = '{' then
          match parseMembersF n rest with
          | some (fs, r) => some (.jobj fs, r)
          | none => none
        else if c = '[' then
          match parseItemsF n rest with
          | some (xs, r) => some (.jarr xs, r)
          | none => none
        else if c = 't' then
          match rest with
          | 'r' :: 'u' :: 'e' :: r => some (.jbool true, r)
          | _ => none
        else if c = 'f' then
          match rest with
          | 'a' :: 'l' :: 's' :: 'e' :: r => some (.jbool false, r)
          | _ => none
        else if c = 'n' then
          match rest with
          | 'u' :: 'l' :: 'l' :: r => some (.jnull, r)
          | _ => none
        else if c.isDigit || c = '-' then
          some (.jnum (String.mk (c :: rest.takeWhile numChar)), rest.dropWhile numChar)
        else none := rfl

theorem parseMembersF_succ (n : Nat) (cs : List Char) :
    parseMembersF (n + 1) cs =
      match skipWs cs with
      | [] => none
      | c :: rest =>
        if c = '}' then some (.nil, rest)
        else if c = '"' then
          match parseStringBody rest with
          | some (k, r1) =>
            match skipWs r1 with
            | [] => none
            | c2 :: r2 =>
              if c2 = ':' then
                match parseValueF n r2 with
                | some (v, r3) =>
                  match skipWs r3 with
                  | [] => none
                  | c3 :: r4 =>
                    if c3 = ',' then
                      match parseMembersF n r4 with
                      | some (fs, r) => some (.cons (String.mk k) v fs, r)
                      | none => none
                    else if c3 = '}' then some (.cons (String.mk k) v .nil, r4)
                    else none
                | none => none
              else none
          | none => none
        else none := rfl

theorem parseItemsF_succ (n : Nat) (cs : List Char) :
    parseItemsF (n + 1) cs =
      match skipWs cs with
      | [] => none
      | c :: rest =>
        if c = ']' then some (.nil, rest)
        else
          match parseValueF n cs with
          | some (v, r1) =>
            match skipWs r1 with
            | [] => none
            | c2 :: r2 =>
              if c2 = ',' then
                match parseItemsF n r2 with
                | some (xs, r) => some (.cons v xs, r)
                | none => none
              else if c2 = ']' then some (.cons v .nil, r2)
              else none
          | none => none := rfl

theorem skipWs_cons_nonws {c : Char} {cs : List Char} (h : wsChar c = false) :
    skipWs (c :: cs) = c :: cs := by
  simp [skipWs, List.dropWhile_cons, h]

theorem all_takeWhile (p : Char → Bool) (l : List Char) :
    (l.takeWhile p).all p = true := by
  induction l with
  | nil => rfl
  | cons c cs ih =>
    by_cases h : p c = true
    · simp [List.takeWhile_cons, h, ih]
    · have h2 : p c = false := by revert h; cases p c <;> simp
      simp [List.takeWhile_cons, h2]

theorem takeWhile_numChar_append (t r : List Char) (ht : t.all numChar = true)
    (hr : numBoundary r = true) :
    (t ++ r).takeWhile numChar = t ∧ (t ++ r).dropWhile numChar = r := by
  induction t with
  | nil =>
    cases r with
    | nil => exact ⟨rfl, rfl⟩
    | cons c r2 =>
      simp only [numBoundary, Bool.not_eq_true'] at hr
      simp [List.takeWhile_cons, List.dropWhile_cons, hr]
  | cons c t2 ih =>
    simp only [List.all_cons, Bool.and_eq_true] at ht
    obtain ⟨hc, ht2⟩ := ht
    obtain ⟨ih1, ih2⟩ := ih ht2
    simp [List.takeWhile_cons, List.dropWhile_cons, hc, ih1, ih2]

theorem unescChar_wf {d e : Char} (h : unescChar d = some e) : wfChar e = true := by
  simp only [unescChar] at h
  split_ifs at h <;> (try cases h) <;> decide

theorem parseStringBody_wf (bound : Nat) :
    ∀ cs : List Char, cs.length ≤ bound → ∀ s r : List Char,
      parseStringBody cs = some (s, r) → s.all wfChar = true := by
  induction bound with
  | zero =>
    intro cs hlen s r h
    cases cs with
    | nil => cases h
    | cons c rest => simp at hlen
  | succ n ih =>
    intro cs hlen s r h
    cases cs with
    | nil => cases h
    | cons c rest =>
      rw [parseStringBody_cons] at h
      by_cases hb : c = '\\'
      · rw [if_pos hb] at h
        cases rest with
        | nil => cases h
        | cons d rest2 =>
          dsimp only at h
          rcases hu : unescChar d with _ | e <;> rw [hu] at h
          · cases h
          · rcases hp : parseStringBody rest2 with _ | ⟨s2, r2⟩ <;> rw [hp] at h
            · cases h
            · injection h with h2
              injection h2 with h3 h4
              subst h3
              have hlen2 : rest2.length ≤ n := by
                simp [List.length_cons] at hlen; omega
              simp [List.all_cons, unescChar_wf hu, ih rest2 hlen2 s2 r2 hp]
      · rw [if_neg hb] at h
        by_cases hq : c = '"'
        · rw [if_pos hq] at h
          injection h with h2
          injection h2 with h3 h4
          subst h3
          rfl
        · rw [if_neg hq] at h
          by_cases h20 : c.toNat < 0x20
          · rw [if_pos h20] at h; cases h
          · rw [if_neg h20] at h
            rcases hp : parseStringBody rest with _ | ⟨s2, r2⟩ <;> rw [hp] at h
            · cases h
            · injection h with h2
              injection h2 with h3 h4
              subst h3
              have hlen2 : rest.length ≤ n := by
                simp [List.length_cons] at hlen; omega
              have hwc : wfChar c = true := by
                simp [wfChar]
                omega
              simp [List.all_cons, hwc, ih rest hlen2 s2 r2 hp]

theorem digit_dash_facts {c : Char} (h : (c.isDigit || c = '-') = true) :
    wsChar c = false ∧ c ≠ ']' ∧ c ≠ '"' ∧ c ≠ '{' ∧ c ≠ '[' ∧
      c ≠ 't' ∧ c ≠ 'f' ∧ c ≠ 'n' := by
  rw [Bool.or_eq_true] at h
  rcases h with hd | hdash
  · have hne : ∀ x : Char, x.isDigit = false → c ≠ x := by
      intro x hx heq
      rw [heq] at hd
      rw [hd] at hx
      cases hx
    refine ⟨?_, hne ']' (by decide), hne '"' (by decide), hne '{' (by decide),
      hne '[' (by decide), hne 't' (by decide), hne 'f' (by decide), hne 'n' (by decide)⟩
    have h1 := hne ' ' (by decide)
    have h2 := hne '\n' (by decide)
    have h3 := hne '\t' (by decide)
    have h4 := hne '\r' (by decide)
    simp [wsChar, h1, h2, h3, h4]
  · have hc : c = '-' := by simpa using hdash
    subst hc
    refine ⟨by decide, by decide, by decide, by decide, by decide, by decide, by decide, by decide⟩

theorem sizeJ_pos (v : JValue) : 1 ≤ sizeJ v := by
  cases v <;> simp only [sizeJ] <;> omega

theorem sizeF_pos (fs : JFields) : 1 ≤ sizeF fs := by
  cases fs <;> simp only [sizeF] <;> omega

theorem sizeI_pos (xs : JItems) : 1 ≤ sizeI xs := by
  cases xs <;> simp only [sizeI] <;> omega

theorem serJ_length_pos (v : JValue) (h : wfJ v = true) : 1 ≤ (serJ v).length := by
  cases v with
  | jnum t =>
    have hwf : numOK t = true := h
    unfold numOK at hwf
    cases ht : t.data with
    | nil => rw [ht] at hwf; cases hwf
    | cons c cs =>
      have e : serJ (.jnum t) = t.data := rfl
      rw [e, ht]
      simp
  | jstr s => simp [serJ]
  | jbool b => cases b <;> simp [serJ]
  | jnull => simp [serJ]
  | jobj fs =>
    have e : serJ (.jobj fs) = '{' :: serFields fs := rfl
    rw [e]; simp
  | jarr xs =>
    have e : serJ (.jarr xs) = '[' :: serItems xs := rfl
    rw [e]; simp

mutual

theorem sizeJ_le_serJ (v : JValue) (h : wfJ v = true) : sizeJ v ≤ (serJ v).length := by
  cases v with
  | jstr s => simp [sizeJ, serJ]
  | jnum t =>
    have e1 : sizeJ (.jnum t) = 1 := rfl
    have e2 : serJ (.jnum t) = t.data := rfl
    rw [e1, e2]
    have hwf : numOK t = true := h
    unfold numOK at hwf
    cases ht : t.data with
    | nil => rw [ht] at hwf; cases hwf
    | cons c cs => simp [ht]
  | jbool b => cases b <;> simp [sizeJ, serJ]
  | jnull => simp [sizeJ, serJ]
  | jobj fs =>
    have hwf : wfFields fs = true := h
    have := sizeF_le_serFields fs hwf
    have e1 : sizeJ (.jobj fs) = 1 + sizeF fs := rfl
    have e2 : serJ (.jobj fs) = '{' :: serFields fs := rfl
    rw [e1, e2, List.length_cons]
    omega
  | jarr xs =>
    have hwf : wfItems xs = true := h
    have := sizeI_le_serItems xs hwf
    have e1 : sizeJ (.jarr xs) = 1 + sizeI xs := rfl
    have e2 : serJ (.jarr xs) = '[' :: serItems xs := rfl
    rw [e1, e2, List.length_cons]
    omega

theorem sizeF_le_serFields (fs : JFields) (h : wfFields fs = true) :
    sizeF fs ≤ (serFields fs).length := by
  cases fs with
  | nil => simp [sizeF, serFields]
  | cons k v fs2 =>
    have h3 : wfStr k = true ∧ wfJ v = true ∧ wfFields fs2 = true := by
      have : (wfStr k && wfJ v && wfFields fs2) = true := h
      simp only [Bool.and_eq_true] at this
      exact ⟨this.1.1, this.1.2, this.2⟩
    have h1 := sizeJ_le_serJ v h3.2.1
    have h2 := sizeF_le_serTail fs2 h3.2.2
    have e1 : sizeF (.cons k v fs2) = 1 + max (sizeJ v) (sizeF fs2) := rfl
    have e2 : serFields (.cons k v fs2) =
        '"' :: (escStr k.data ++ '"' :: ':' :: serJ v) ++ serTail fs2 := rfl
    have h4 : 1 ≤ (serTail fs2).length := by cases fs2 <;> simp [serTail]
    rw [e1, e2]
    simp only [List.length_append, List.length_cons]
    omega

theorem sizeF_le_serTail (fs : JFields) (h : wfFields fs = true) :
    sizeF fs ≤ (serTail fs).length := by
  cases fs with
  | nil => simp [sizeF, serTail]
  | cons k v fs2 =>
    have h3 : wfStr k = true ∧ wfJ v = true ∧ wfFields fs2 = true := by
      have : (wfStr k && wfJ v && wfFields fs2) = true := h
      simp only [Bool.and_eq_true] at this
      exact ⟨this.1.1, this.1.2, this.2⟩
    have h1 := sizeJ_le_serJ v h3.2.1
    have h2 := sizeF_le_serTail fs2 h3.2.2
    have e1 : sizeF (.cons k v fs2) = 1 + max (sizeJ v) (sizeF fs2) := rfl
    have e2 : serTail (.cons k v fs2) =
        ',' :: '"' :: (escStr k.data ++ '"' :: ':' :: serJ v) ++ serTail fs2 := rfl
    have h4 : 1 ≤ (serTail fs2).length := by cases fs2 <;> simp [serTail]
    rw [e1, e2]
    simp only [List.length_append, List.length_cons]
    omega

theorem sizeI_le_serItems (xs : JItems) (h : wfItems xs = true) :
    sizeI xs ≤ (serItems xs).length := by
  cases xs with
  | nil => simp [sizeI, serItems]
  | cons v xs2 =>
    have h3 : wfJ v = true ∧ wfItems xs2 = true := by
      have : (wfJ v && wfItems xs2) = true := h
      simpa only [Bool.and_eq_true] using this
    have h1 := sizeJ_le_serJ v h3.1
    have h2 := sizeI_le_serITail xs2 h3.2
    have e1 : sizeI (.cons v xs2) = 1 + max (sizeJ v) (sizeI xs2) := rfl
    have e2 : serItems (.cons v xs2) = serJ v ++ serITail xs2 := rfl
    have h4 : 1 ≤ (serITail xs2).length := by cases xs2 <;> simp [serITail]
    have h5 := serJ_length_pos v h3.1
    rw [e1, e2]
    simp only [List.length_append]
    omega

theorem sizeI_le_serITail (xs : JItems) (h : wfItems xs = true) :
    sizeI xs ≤ (serITail xs).length := by
  cases xs with
  | nil => simp [sizeI, serITail]
  | cons v xs2 =>
    have h3 : wfJ v = true ∧ wfItems xs2 = true := by
      have : (wfJ v && wfItems xs2) = true := h
      simpa only [Bool.and_eq_true] using this
    have h1 := sizeJ_le_serJ v h3.1
    have h2 := sizeI_le_serITail xs2 h3.2
    have e1 : sizeI (.cons v xs2) = 1 + max (sizeJ v) (sizeI xs2) := rfl
    have e2 : serITail (.cons v xs2) = ',' :: serJ v ++ serITail xs2 := rfl
    have h4 : 1 ≤ (serITail xs2).length := by cases xs2 <;> simp [serITail]
    have h5 := serJ_length_pos v h3.1
    rw [e1, e2]
    simp only [List.length_append, List.length_cons]
    omega

end

theorem numBoundary_serTail (fs : JFields) (rest : List Char) :
    numBoundary (serTail fs ++ rest) = true := by
  cases fs <;> rfl

theorem numBoundary_serITail (xs : JItems) (rest : List Char) :
    numBoundary (serITail xs ++ rest) = true := by
  cases xs <;> rfl

theorem serJ_head (v : JValue) (h : wfJ v = true) :
    ∃ c t, serJ v = c :: t ∧ wsChar c = false ∧ c ≠ ']' := by
  cases v with
  | jstr s => exact ⟨'"', escStr s.data ++ ['"'], rfl, by decide, by decide⟩
  | jnum t =>
    have hwf : numOK t = true := h
    unfold numOK at hwf
    cases ht : t.data with
    | nil => rw [ht] at hwf; cases hwf
    | cons c cs =>
      rw [ht] at hwf
      dsimp only at hwf
      simp only [Bool.and_eq_true] at hwf
      obtain ⟨hd, _⟩ := hwf
      obtain ⟨hws, hrb, _⟩ := digit_dash_facts hd
      refine ⟨c, cs, ?_, hws, hrb⟩
      have e : serJ (.jnum t) = t.data := rfl
      rw [e, ht]
  | jbool b =>
    cases b with
    | false => exact ⟨'f', ['a', 'l', 's', 'e'], rfl, by decide, by decide⟩
    | true => exact ⟨'t', ['r', 'u', 'e'], rfl, by decide, by decide⟩
  | jnull => exact ⟨'n', ['u', 'l', 'l'], rfl, by decide, by decide⟩
  | jobj fs => exact ⟨'{', serFields fs, rfl, by decide, by decide⟩
  | jarr xs => exact ⟨'[', serItems xs, rfl, by decide, by decide⟩

theorem serParse : ∀ fuel : Nat,
    (∀ (v : JValue) (rest : List Char), wfJ v = true → sizeJ v ≤ fuel →
      numBoundary rest = true → parseValueF fuel (serJ v ++ rest) = some (v, rest)) ∧
    (∀ (fs : JFields) (rest : List Char), wfFields fs = true → sizeF fs ≤ fuel →
      parseMembersF fuel (serFields fs ++ rest) = some (fs, rest)) ∧
    (∀ (xs : JItems) (rest : List Char), wfItems xs = true → sizeI xs ≤ fuel →
      parseItemsF fuel (serItems xs ++ rest) = some (xs, rest)) := by
  intro fuel
  induction fuel using Nat.strong_induction_on with
  | _ fuel IH =>
  refine ⟨fun v rest hwf hsz hnb => ?_, fun fs rest hwf hsz => ?_, fun xs rest hwf hsz => ?_⟩
  · -- values
    cases fuel with
    | zero => have := sizeJ_pos v; omega
    | succ n =>
      cases v with
      | jstr s =>
        have e : serJ (.jstr s) ++ rest = '"' :: (escStr s.data ++ '"' :: rest) := by
          show ('"' :: (escStr s.data ++ ['"'])) ++ rest = _
          simp [List.cons_append, List.append_assoc]
        rw [e, parseValueF_succ, skipWs_cons_nonws (by decide)]
        have hstr : s.data.all wfChar = true := hwf
        simp [parseStringBody_escStr s.data rest hstr]
      | jnum t =>
        have hwf2 : numOK t = true := hwf
        unfold numOK at hwf2
        cases ht : t.data with
        | nil => rw [ht] at hwf2; cases hwf2
        | cons c cs =>
          rw [ht] at hwf2
          dsimp only at hwf2
          simp only [Bool.and_eq_true] at hwf2
          obtain ⟨hd, hall⟩ := hwf2
          obtain ⟨hws, hrb, hq, hob, hsb, htl, hfl, hnl⟩ := digit_dash_facts hd
          have hallcs : cs.all numChar = true := by
            simp only [List.all_cons, Bool.and_eq_true] at hall
            exact hall.2
          have e : serJ (.jnum t) ++ rest = c :: (cs ++ rest) := by
            have e2 : serJ (.jnum t) = t.data := rfl
            rw [e2, ht]
            rfl
          obtain ⟨htk, hdr⟩ := takeWhile_numChar_append cs rest hallcs hnb
          rw [e, parseValueF_succ, skipWs_cons_nonws hws]
          dsimp only
          rw [if_neg hq, if_neg hob, if_neg hsb, if_neg htl, if_neg hfl, if_neg hnl,
            if_pos hd, htk, hdr, ← ht]
      | jbool b =>
        cases b with
        | true =>
          have e : serJ (.jbool true) ++ rest = 't' :: 'r' :: 'u' :: 'e' :: rest := rfl
          rw [e, parseValueF_succ, skipWs_cons_nonws (by decide)]
          rfl
        | false =>
          have e : serJ (.jbool false) ++ rest = 'f' :: 'a' :: 'l' :: 's' :: 'e' :: rest := rfl
          rw [e, parseValueF_succ, skipWs_cons_nonws (by decide)]
          rfl
      | jnull =>
        have e : serJ .jnull ++ rest = 'n' :: 'u' :: 'l' :: 'l' :: rest := rfl
        rw [e, parseValueF_succ, skipWs_cons_nonws (by decide)]
        rfl
      | jobj fs =>
        have hwff : wfFields fs = true := hwf
        have hszf : sizeF fs ≤ n := by
          have e : sizeJ (.jobj fs) = 1 + sizeF fs := rfl
          rw [e] at hsz
          omega
        have e : serJ (.jobj fs) ++ rest = '{' :: (serFields fs ++ rest) := by
          show ('{' :: serFields fs) ++ rest = _
          simp [List.cons_append]
        rw [e, parseValueF_succ, skipWs_cons_nonws (by decide)]
        have hm := (IH n (by omega)).2.1 fs rest hwff hszf
        simp [hm]
      | jarr xs =>
        have hwfx : wfItems xs = true := hwf
        have hszx : sizeI xs ≤ n := by
          have e : sizeJ (.jarr xs) = 1 + sizeI xs := rfl
          rw [e] at hsz
          omega
        have e : serJ (.jarr xs) ++ rest = '[' :: (serItems xs ++ rest) := by
          show ('[' :: serItems xs) ++ rest = _
          simp [List.cons_append]
        rw [e, parseValueF_succ, skipWs_cons_nonws (by decide)]
        have hm := (IH n (by omega)).2.2 xs rest hwfx hszx
        simp [hm]
  · -- object members
    cases fuel with
    | zero => have := sizeF_pos fs; omega
    | succ n =>
      cases fs with
      | nil =>
        have e : serFields .nil ++ rest = '}' :: rest := rfl
        rw [e, parseMembersF_succ, skipWs_cons_nonws (by decide)]
        rfl
      | cons k v fs2 =>
        have h3 : wfStr k = true ∧ wfJ v = true ∧ wfFields fs2 = true := by
          have h4 : (wfStr k && wfJ v && wfFields fs2) = true := hwf
          simp only [Bool.and_eq_true] at h4
          exact ⟨h4.1.1, h4.1.2, h4.2⟩
        have hsz2 : sizeJ v ≤ n ∧ sizeF fs2 ≤ n := by
          have e : sizeF (.cons k v fs2) = 1 + max (sizeJ v) (sizeF fs2) := rfl
          rw [e] at hsz
          constructor <;> omega
        have e : serFields (.cons k v fs2) ++ rest =
            '"' :: (escStr k.data ++ '"' :: (':' :: (serJ v ++ (serTail fs2 ++ rest)))) := by
          show ('"' :: (escStr k.data ++ '"' :: ':' :: serJ v) ++ serTail fs2) ++ rest = _
          simp [List.cons_append, List.append_assoc]
        have hps := parseStringBody_escStr k.data (':' :: (serJ v ++ (serTail fs2 ++ rest))) h3.1
        have hv := (IH n (by omega)).1 v (serTail fs2 ++ rest) h3.2.1 hsz2.1
          (numBoundary_serTail fs2 rest)
        rw [e, parseMembersF_succ, skipWs_cons_nonws (by decide)]
        cases fs2 with
        | nil =>
          have e2 : serTail JFields.nil ++ rest = '}' :: rest := rfl
          have hk : String.mk k.data = k := rfl
          rw [e2] at hps hv ⊢
          simp [hps, hv, hk, skipWs, List.dropWhile_cons, wsChar]
        | cons k2 v2 fs3 =>
          have e2 : serTail (JFields.cons k2 v2 fs3) ++ rest =
              ',' :: (serFields (JFields.cons k2 v2 fs3) ++ rest) := rfl
          have hm := (IH n (by omega)).2.1 (JFields.cons k2 v2 fs3) rest h3.2.2 hsz2.2
          have hk : String.mk k.data = k := rfl
          rw [e2] at hps hv ⊢
          simp [hps, hv, hm, hk, skipWs, List.dropWhile_cons, wsChar]
  · -- array items
    cases fuel with
    | zero => have := sizeI_pos xs; omega
    | succ n =>
      cases xs with
      | nil =>
        have e : serItems .nil ++ rest = ']' :: rest := rfl
        rw [e, parseItemsF_succ, skipWs_cons_nonws (by decide)]
        rfl
      | cons v xs2 =>
        have h3 : wfJ v = true ∧ wfItems xs2 = true := by
          have h4 : (wfJ v && wfItems xs2) = true := hwf
          simpa only [Bool.and_eq_true] using h4
        have hsz2 : sizeJ v ≤ n ∧ sizeI xs2 ≤ n := by
          have e : sizeI (.cons v xs2) = 1 + max (sizeJ v) (sizeI xs2) := rfl
          rw [e] at hsz
          constructor <;> omega
        obtain ⟨c, t, hser, hws, hrb⟩ := serJ_head v h3.1
        have e : serItems (.cons v xs2) ++ rest = c :: (t ++ (serITail xs2 ++ rest)) := by
          show (serJ v ++ serITail xs2) ++ rest = _
          rw [hser]
          simp [List.cons_append, List.append_assoc]
        have e3 : c :: (t ++ (serITail xs2 ++ rest)) = serJ v ++ (serITail xs2 ++ rest) := by
          rw [hser]
          simp [List.cons_append]
        have hv := (IH n (by omega)).1 v (serITail xs2 ++ rest) h3.1 hsz2.1
          (numBoundary_serITail xs2 rest)
        rw [e, parseItemsF_succ, skipWs_cons_nonws hws]
        cases xs2 with
        | nil =>
          have e2 : serITail JItems.nil ++ rest = ']' :: rest := rfl
          have e4 : c :: (t ++ (']' :: rest)) = serJ v ++ ']' :: rest := by
            rw [hser]
            simp [List.cons_append]
          rw [e2] at hv
          simp only [if_neg hrb, e2]
          rw [e4, hv]
          simp [skipWs, List.dropWhile_cons, wsChar]
        | cons v2 xs3 =>
          have e2 : serITail (JItems.cons v2 xs3) ++ rest =
              ',' :: (serItems (JItems.cons v2 xs3) ++ rest) := rfl
          have hm := (IH n (by omega)).2.2 (JItems.cons v2 xs3) rest h3.2 hsz2.2
          have e4 : c :: (t ++ (',' :: (serItems (JItems.cons v2 xs3) ++ rest))) =
              serJ v ++ ',' :: (serItems (JItems.cons v2 xs3) ++ rest) := by
            rw [hser]
            simp [List.cons_append]
          rw [e2] at hv
          simp only [if_neg hrb, e2]
          rw [e4, hv]
          simp [hm, skipWs, List.dropWhile_cons, wsChar]


theorem parse_wf : ∀ fuel : Nat,
    (∀ (cs : List Char) (v : JValue) (rest : List Char),
      parseValueF fuel cs = some (v, rest) → wfJ v = true) ∧
    (∀ (cs : List Char) (fs : JFields) (rest : List Char),
      parseMembersF fuel cs = some (fs, rest) → wfFields fs = true) ∧
    (∀ (cs : List Char) (xs : JItems) (rest : List Char),
      parseItemsF fuel cs = some (xs, rest) → wfItems xs = true) := by
  intro fuel
  induction fuel with
  | zero =>
    refine ⟨fun cs v rest h => ?_, fun cs fs rest h => ?_, fun cs xs rest h => ?_⟩ <;> cases h
  | succ n IH =>
    refine ⟨fun cs v rest h => ?_, fun cs fs rest h => ?_, fun cs xs rest h => ?_⟩
    · rw [parseValueF_succ] at h
      rcases hsk : skipWs cs with _ | ⟨c, r1⟩ <;> rw [hsk] at h
      · cases h
      · dsimp only at h
        by_cases h1 : c = '"'
        · rw [if_pos h1] at h
          rcases hp : parseStringBody r1 with _ | ⟨s, r⟩ <;> rw [hp] at h
          · cases h
          · injection h with h2
            injection h2 with h3 h4
            subst h3
            exact parseStringBody_wf r1.length r1 (le_refl _) s r hp
        · rw [if_neg h1] at h
          by_cases h2 : c = '{'
          · rw [if_pos h2] at h
            rcases hp : parseMembersF n r1 with _ | ⟨fs, r⟩ <;> rw [hp] at h
            · cases h
            · injection h with h3
              injection h3 with h4 h5
              subst h4
              exact IH.2.1 r1 fs r hp
          · rw [if_neg h2] at h
            by_cases h3 : c = '['
            · rw [if_pos h3] at h
              rcases hp : parseItemsF n r1 with _ | ⟨xs, r⟩ <;> rw [hp] at h
              · cases h
              · injection h with h4
                injection h4 with h5 h6
                subst h5
                exact IH.2.2 r1 xs r hp
            · rw [if_neg h3] at h
              by_cases h4 : c = 't'
              · rw [if_pos h4] at h
                split at h
                · injection h with h5
                  injection h5 with h6 h7
                  subst h6
                  rfl
                · cases h
              · rw [if_neg h4] at h
                by_cases h5 : c = 'f'
                · rw [if_pos h5] at h
                  split at h
                  · injection h with h6
                    injection h6 with h7 h8
                    subst h7
                    rfl
                  · cases h
                · rw [if_neg h5] at h
                  by_cases h6 : c = 'n'
                  · rw [if_pos h6] at h
                    split at h
                    · injection h with h7
                      injection h7 with h8 h9
                      subst h8
                      rfl
                    · cases h
                  · rw [if_neg h6] at h
                    by_cases h7 : (c.isDigit || c = '-') = true
                    · rw [if_pos h7] at h
                      injection h with h8
                      injection h8 with h9 h10
                      subst h9
                      have e : wfJ (.jnum (String.mk (c :: r1.takeWhile numChar))) =
                          numOK (String.mk (c :: r1.takeWhile numChar)) := rfl
                      rw [e]
                      unfold numOK
                      dsimp only
                      have hnc : numChar c = true := by
                        rw [Bool.or_eq_true] at h7
                        rcases h7 with hd | hd <;> simp [numChar, hd]
                      simp [hnc, all_takeWhile]
                      rw [Bool.or_eq_true] at h7
                      simpa using h7
                    · rw [if_neg h7] at h
                      cases h
    · rw [parseMembersF_succ] at h
      rcases hsk : skipWs cs with _ | ⟨c, r1⟩ <;> rw [hsk] at h
      · cases h
      · dsimp only at h
        by_cases h1 : c = '}'
        · rw [if_pos h1] at h
          injection h with h2
          injection h2 with h3 h4
          subst h3
          rfl
        · rw [if_neg h1] at h
          by_cases h2 : c = '"'
          · rw [if_pos h2] at h
            rcases hp : parseStringBody r1 with _ | ⟨k, r2⟩ <;> rw [hp] at h
            · cases h
            · dsimp only at h
              rcases hsk2 : skipWs r2 with _ | ⟨c2, r3⟩ <;> rw [hsk2] at h
              · cases h
              · dsimp only at h
                by_cases h3 : c2 = ':'
                · rw [if_pos h3] at h
                  rcases hv : parseValueF n r3 with _ | ⟨v, r4⟩ <;> rw [hv] at h
                  · cases h
                  · dsimp only at h
                    rcases hsk3 : skipWs r4 with _ | ⟨c3, r5⟩ <;> rw [hsk3] at h
                    · cases h
                    · dsimp only at h
                      have hkwf : (String.mk k).data.all wfChar = true :=
                        parseStringBody_wf r1.length r1 (le_refl _) k r2 hp
                      by_cases h4 : c3 = ','
                      · rw [if_pos h4] at h
                        rcases hm : parseMembersF n r5 with _ | ⟨fs2, r6⟩ <;> rw [hm] at h
                        · cases h
                        · injection h with h5
                          injection h5 with h6 h7
                          subst h6
                          have e : wfFields (.cons (String.mk k) v fs2) =
                              (wfStr (String.mk k) && wfJ v && wfFields fs2) := rfl
                          rw [e]
                          simp [wfStr, hkwf, IH.1 r3 v r4 hv, IH.2.1 r5 fs2 r6 hm]
                      · rw [if_neg h4] at h
                        by_cases h5 : c3 = '}'
                        · rw [if_pos h5] at h
                          injection h with h6
                          injection h6 with h7 h8
                          subst h7
                          have e : wfFields (.cons (String.mk k) v .nil) =
                              (wfStr (String.mk k) && wfJ v && wfFields .nil) := rfl
                          rw [e]
                          simp [wfStr, hkwf, IH.1 r3 v r4 hv, wfFields]
                        · rw [if_neg h5] at h
                          cases h
                · rw [if_neg h3] at h
                  cases h
          · rw [if_neg h2] at h
            cases h
    · rw [parseItemsF_succ] at h
      rcases hsk : skipWs cs with _ | ⟨c, r1⟩ <;> rw [hsk] at h
      · cases h
      · dsimp only at h
        by_cases h1 : c = ']'
        · rw [if_pos h1] at h
          injection h with h2
          injection h2 with h3 h4
          subst h3
          rfl
        · rw [if_neg h1] at h
          rcases hv : parseValueF n cs with _ | ⟨v, r2⟩ <;> rw [hv] at h
          · cases h
          · dsimp only at h
            rcases hsk2 : skipWs r2 with _ | ⟨c2, r3⟩ <;> rw [hsk2] at h
            · cases h
            · dsimp only at h
              by_cases h2 : c2 = ','
              · rw [if_pos h2] at h
                rcases hm : parseItemsF n r3 with _ | ⟨xs2, r4⟩ <;> rw [hm] at h
                · cases h
                · injection h with h3
                  injection h3 with h4 h5
                  subst h4
                  have e : wfItems (.cons v xs2) = (wfJ v && wfItems xs2) := rfl
                  rw [e]
                  simp [IH.1 cs v r2 hv, IH.2.2 r3 xs2 r4 hm]
              · rw [if_neg h2] at h
                by_cases h3 : c2 = ']'
                · rw [if_pos h3] at h
                  injection h with h4
                  injection h4 with h5 h6
                  subst h5
                  have e : wfItems (.cons v .nil) = (wfJ v && wfItems .nil) := rfl
                  rw [e]
                  simp [IH.1 cs v r2 hv, wfItems]
                · rw [if_neg h3] at h
                  cases h

/-- C9: idempotence on well-formed input — when the input parses directly
(the fast path, which performs no repair) and construction succeeds, the
extraction result is that mapping unmutated, and re-extracting the
serialized result gives the same value: extract(T) = extract(serialize(extract(T))). -/
theorem extract_idempotent_on_wellformed (T : String) (sch : Schema) (m v : JFields)
    (h1 : directParse T = some m) (h2 : construct sch m = some v) :
    extract T sch = some v ∧ extract (serializeMapping v) sch = some v := by
  have hvm : v = m := construct_some_eq h2
  subst hvm
  have hwf : wfFields v = true := by
    unfold directParse at h1
    rcases hp : parseValueF (T.data.length + 1) T.data with _ | ⟨w, rest⟩ <;> rw [hp] at h1
    · cases h1
    · rcases w with s | t | b | _ | fs | xs <;> dsimp only at h1
      case jobj =>
        have hwj := (parse_wf (T.data.length + 1)).1 T.data (.jobj fs) rest hp
        split at h1
        · injection h1 with h3
          subst h3
          exact hwj
        · cases h1
      all_goals cases h1
  constructor
  · unfold extract
    rw [h1]
    exact h2
  · have hdp : directParse (serializeMapping v) = some v := by
      unfold serializeMapping directParse
      have hdata : (String.mk (serJ (.jobj v))).data = serJ (.jobj v) := rfl
      rw [hdata]
      have hfuel : sizeJ (.jobj v) ≤ (serJ (.jobj v)).length + 1 := by
        have := sizeJ_le_serJ (.jobj v) (show wfJ (.jobj v) = true from hwf)
        omega
      have hrt := (serParse ((serJ (.jobj v)).length + 1)).1 (.jobj v) []
        (show wfJ (.jobj v) = true from hwf) hfuel (by rfl)
      rw [List.append_nil] at hrt
      rw [hrt]
      rfl
    unfold extract
    rw [hdp]
    exact h2

/-- Witness for C9: the clean input and its reserialization both extract
to the same value. -/
theorem extract_idempotent_on_wellformed_w :
    extract "\x7b\"name\": \"x\"\x7d" mockSchema = some (.cons "name" (.jstr "x") .nil) ∧
    extract (serializeMapping (.cons "name" (.jstr "x") .nil)) mockSchema =
      some (.cons "name" (.jstr "x") .nil) :=
  extract_idempotent_on_wellformed "\x7b\"name\": \"x\"\x7d" mockSchema
    (.cons "name" (.jstr "x") .nil) (.cons "name" (.jstr "x") .nil) (by rfl) (by rfl)
